import Mathlib

/-!
# A verification of the `sked`/`tock` scheduler

A shallow embedding of `internal/scheduler` (and the parts of
`internal/config` it consumes), together with proofs about the schedule
lookup operations `GetCurrentTask`, `GetNextTask`, `GetPreviousTask`,
`GetTasksForDate` and the day-slot resolver `getCycleDayID`.

Modelling conventions:

* An instant is a calendar day number together with a minute-of-day, all in
  one fixed-offset time zone (the scheduler always works in the query's
  location, and every `time.Time` it builds is on a whole minute).
  Day 0 of the model corresponds to Go's zero time 0001-01-01, a Monday.
* Go `int` values are `Int`; Go's truncated `%` is `Int.tmod`.
* The anchor date string is carried already parsed, as `Option Int`
  (`none` is Go's empty string `""`); the `time.Parse("2006-01-02", ...)`
  failure branch is therefore not representable.  The `"15:04"` clock
  parser, which the claims are about, is modelled in full.
* Fallible Go functions returning `(..., error)` become `Except Unit`.
-/

namespace Sked

/-- An instant: a calendar day number (days since 0001-01-01, a Monday)
and a minute-of-day, in a fixed-offset time zone. -/
structure Instant where
  day : Int
  minute : Int
deriving DecidableEq

/-- Total minutes of an instant; Go's `Before`/`After`/`Equal` on the
whole-minute instants the scheduler builds compare exactly this. -/
def toMin (t : Instant) : Int := t.day * 1440 + t.minute

/-- Go `t.AddDate(0, 0, i)` in a fixed-offset zone: shift the calendar
day, keep the time of day. -/
def addDays (t : Instant) (i : Int) : Instant := ⟨t.day + i, t.minute⟩

/-- Go `date.Weekday()` (Sunday = 0 … Saturday = 6).  Model day 0
(0001-01-01) is a Monday, hence the `+ 1`. -/
def weekday (d : Int) : Int := (d + 1) % 7

/-- Numeric value of a decimal digit character. -/
def digitVal (c : Char) : Nat := c.toNat - 48

/-- Go `getnum` (`time/format.go`): read one digit, or two when the second
character is also a digit; `fixed` demands exactly two digits. -/
def getnum (s : List Char) (fixed : Bool) : Option (Nat × List Char) :=
  match s with
  | [] => none
  | c1 :: rest =>
    if c1.isDigit then
      match rest with
      | c2 :: rest2 =>
        if c2.isDigit then some (10 * digitVal c1 + digitVal c2, rest2)
        else if fixed then none else some (digitVal c1, rest)
      | [] => if fixed then none else some (digitVal c1, [])
    else none

/-- Go `time.Parse("15:04", s)`: a one- or two-digit hour (checked to be
below 24), a literal colon, a fixed two-digit minute (checked to be below
60), and nothing after that. -/
def parseClock (s : List Char) : Option (Nat × Nat) :=
  match getnum s false with
  | none => none
  | some (h, rest) =>
    if 24 ≤ h then none
    else
      match rest with
      | ':' :: rest2 =>
        match getnum rest2 true with
        | none => none
        | some (m, rest3) =>
          if 60 ≤ m then none
          else
            match rest3 with
            | [] => some (h, m)
            | _ :: _ => none
      | _ => none

/-- `parseTimeOnDate` (scheduler): interpret an `"HH:MM"` string on the
calendar day of `date`, in `date`'s location. -/
def parseTimeOnDate (date : Instant) (timeStr : String) : Except Unit Instant :=
  match parseClock timeStr.toList with
  | none => Except.error ()
  | some (h, m) => Except.ok ⟨date.day, (h : Int) * 60 + (m : Int)⟩

/-- `config.Task`: a task template.  The Go field `End` is called `stop`
here because `end` is reserved in Lean. -/
structure Task where
  name : String
  start : String
  stop : String
deriving DecidableEq

/-- `config.Day`: one day-slot of the cycle. -/
structure Day where
  id : Int
  tasks : List Task
deriving DecidableEq

/-- `config.Override`.  `date` and `endDate` are the parsed calendar days
(fields `Date` and `EndDate`); `EndDate` is the field the constructions in
`override_test.go` populate for date ranges. -/
structure Override where
  isOff : Bool
  date : Int
  endDate : Int
  useDayID : Int
deriving DecidableEq

/-- `config.Config`, restricted to the fields the scheduler reads.
`anchorDate = none` is Go's `AnchorDate == ""`. -/
structure Config where
  cycleDays : Int
  anchorDate : Option Int
  days : List Day
  overrides : List Override
deriving DecidableEq

/-- `scheduler.TaskEvent`: a materialized task instance. -/
structure TaskEvent where
  name : String
  startTime : Instant
  endTime : Instant
deriving DecidableEq

/-- The override scan at the top of `getCycleDayID`: the first override
whose (single) `Date` has the same calendar day as the query date. -/
def findOverride : List Override → Int → Option Override
  | [], _ => none
  | o :: rest, d => if o.date = d then some o else findOverride rest d

/-- The two-line normalization after `diff % cycleDays` in
`getCycleDayID`: `mod := diff % n; if mod < 0 { mod += n }`. -/
def goNorm (x n : Int) : Int :=
  let m := Int.tmod x n
  if m < 0 then m + n else m

/-- `getCycleDayID` (scheduler): resolve the 0-indexed day-slot for a
date.  `-1` marks an OFF day.  Overrides are scanned first; a standard
7-day cycle with no anchor uses the weekday; otherwise the slot is the
normalized day difference from the anchor modulo the cycle length. -/
def getCycleDayID (cfg : Config) (date : Instant) : Except Unit Int :=
  match findOverride cfg.overrides date.day with
  | some o => if o.isOff then Except.ok (-1) else Except.ok o.useDayID
  | none =>
    if cfg.cycleDays = 7 ∧ cfg.anchorDate = none then
      Except.ok (weekday date.day)
    else
      match cfg.anchorDate with
      | none => Except.error ()
      | some anchor => Except.ok (goNorm (date.day - anchor) cfg.cycleDays)

/-- `getTasksForDay` (scheduler): the templates of the first configured
day with the given id; empty for `-1` (OFF) or an unconfigured id. -/
def getTasksForDay (cfg : Config) (dayID : Int) : List Task :=
  if dayID = -1 then []
  else
    match cfg.days.find? (fun d => d.id == dayID) with
    | some d => d.tasks
    | none => []

/-- `parseTaskTimes` (scheduler): both clock strings of a template, on
the given date. -/
def parseTaskTimes (date : Instant) (t : Task) : Except Unit (Instant × Instant) :=
  match parseTimeOnDate date t.start with
  | Except.error e => Except.error e
  | Except.ok s =>
    match parseTimeOnDate date t.stop with
    | Except.error e => Except.error e
    | Except.ok e => Except.ok (s, e)

/-- The task loop of `GetCurrentTask`: declaration order, no sorting; the
first template whose `[start, stop)` interval contains `now` decides the
result, and a placeholder (`"/"`) hit yields `none` at once. -/
def currentScan (now : Instant) : List Task → Except Unit (Option TaskEvent)
  | [] => Except.ok none
  | t :: rest =>
    match parseTaskTimes now t with
    | Except.error e => Except.error e
    | Except.ok (s, e) =>
      if toMin s ≤ toMin now ∧ toMin now < toMin e then
        if t.name = "/" then Except.ok none
        else Except.ok (some ⟨t.name, s, e⟩)
      else currentScan now rest

/-- `GetCurrentTask` (scheduler). -/
def GetCurrentTask (cfg : Config) (now : Instant) : Except Unit (Option TaskEvent) :=
  match getCycleDayID cfg now with
  | Except.error e => Except.error e
  | Except.ok dayID => currentScan now (getTasksForDay cfg dayID)

/-- The per-day event construction both walkers and `GetTasksForDate`
share: each template of the day, materialized on `date`, in declaration
order. -/
def materialize (date : Instant) : List Task → Except Unit (List TaskEvent)
  | [] => Except.ok []
  | t :: rest =>
    match parseTaskTimes date t with
    | Except.error e => Except.error e
    | Except.ok (s, e) =>
      match materialize date rest with
      | Except.error err => Except.error err
      | Except.ok evs => Except.ok (⟨t.name, s, e⟩ :: evs)

/-- Comparator of the ascending `sort.Slice` calls (`StartTime.Before`).
`sort.Slice` is an unstable sort; `List.insertionSort` below realizes one
admissible outcome, and every proof uses only sortedness and
permutation. -/
def leStart (a b : TaskEvent) : Prop := toMin a.startTime ≤ toMin b.startTime

instance : DecidableRel leStart := fun _ _ => Int.decLe _ _

instance : IsTotal TaskEvent leStart := ⟨fun _ _ => le_total _ _⟩

instance : IsTrans TaskEvent leStart := ⟨fun _ _ _ => le_trans⟩

/-- Comparator of the descending `sort.Slice` call in `GetPreviousTask`
(`EndTime.After`): later end first. -/
def geEnd (a b : TaskEvent) : Prop := toMin b.endTime ≤ toMin a.endTime

instance : DecidableRel geEnd := fun _ _ => Int.decLe _ _

instance : IsTotal TaskEvent geEnd := ⟨fun _ _ => le_total _ _⟩

instance : IsTrans TaskEvent geEnd := ⟨fun _ _ _ h1 h2 => le_trans h2 h1⟩

/-- The search bound `maxDays := cycleDays * 2; if maxDays < 7 { 7 }`
both walkers compute, i.e. `max(cycleDays * 2, 7)`. -/
def maxDays (cfg : Config) : Int :=
  let m := cfg.cycleDays * 2
  if m < 7 then 7 else m

/-- The day offsets `0, 1, …, maxDays - 1` of the forward walk. -/
def searchOffsets (cfg : Config) : List Int :=
  (List.range (maxDays cfg).toNat).map Int.ofNat

/-- The day offsets `0, -1, …, -(maxDays - 1)` of the backward walk. -/
def prevOffsets (cfg : Config) : List Int :=
  (List.range (maxDays cfg).toNat).map fun i => -(Int.ofNat i)

/-- The inner loop of `GetNextTask` over one day's sorted events: the
first event starting strictly after `now`, skipping placeholders. -/
def scanNext (now : Instant) : List TaskEvent → Option TaskEvent
  | [] => none
  | e :: rest =>
    if toMin now < toMin e.startTime then
      if e.name = "/" then scanNext now rest else some e
    else scanNext now rest

/-- The day loop of `GetNextTask`, walking the offset list in order. -/
def nextSearch (cfg : Config) (now : Instant) : List Int → Except Unit (Option TaskEvent)
  | [] => Except.ok none
  | i :: rest =>
    match getCycleDayID cfg (addDays now i) with
    | Except.error e => Except.error e
    | Except.ok dayID =>
      match materialize (addDays now i) (getTasksForDay cfg dayID) with
      | Except.error e => Except.error e
      | Except.ok evs =>
        match scanNext now (List.insertionSort leStart evs) with
        | some ev => Except.ok (some ev)
        | none => nextSearch cfg now rest

/-- `GetNextTask` (scheduler). -/
def GetNextTask (cfg : Config) (now : Instant) : Except Unit (Option TaskEvent) :=
  nextSearch cfg now (searchOffsets cfg)

/-- The inner loop of `GetPreviousTask` over one day's events sorted by
descending end: the first event ending at or before `now`, skipping
placeholders. -/
def scanPrev (now : Instant) : List TaskEvent → Option TaskEvent
  | [] => none
  | e :: rest =>
    if toMin e.endTime ≤ toMin now then
      if e.name = "/" then scanPrev now rest else some e
    else scanPrev now rest

/-- The day loop of `GetPreviousTask`, walking the offset list in order. -/
def prevSearch (cfg : Config) (now : Instant) : List Int → Except Unit (Option TaskEvent)
  | [] => Except.ok none
  | i :: rest =>
    match getCycleDayID cfg (addDays now i) with
    | Except.error e => Except.error e
    | Except.ok dayID =>
      match materialize (addDays now i) (getTasksForDay cfg dayID) with
      | Except.error e => Except.error e
      | Except.ok evs =>
        match scanPrev now (List.insertionSort geEnd evs) with
        | some ev => Except.ok (some ev)
        | none => prevSearch cfg now rest

/-- `GetPreviousTask` (scheduler). -/
def GetPreviousTask (cfg : Config) (now : Instant) : Except Unit (Option TaskEvent) :=
  prevSearch cfg now (prevOffsets cfg)

/-- `GetTasksForDate` (scheduler): every template of the resolved slot,
materialized on `date` and sorted by start time.  Note: no placeholder
filtering happens here. -/
def GetTasksForDate (cfg : Config) (date : Instant) : Except Unit (List TaskEvent) :=
  match getCycleDayID cfg date with
  | Except.error e => Except.error e
  | Except.ok dayID =>
    match materialize date (getTasksForDay cfg dayID) with
    | Except.error e => Except.error e
    | Except.ok evs => Except.ok (List.insertionSort leStart evs)

/-! ## Basic facts about the clock parser and materialization -/

theorem parseClock_bounds {l : List Char} {h m : Nat}
    (hp : parseClock l = some (h, m)) : h < 24 ∧ m < 60 := by
  unfold parseClock at hp
  split at hp
  · exact absurd hp (by simp)
  · split at hp
    · exact absurd hp (by simp)
    · split at hp
      · split at hp
        · exact absurd hp (by simp)
        · split at hp
          · exact absurd hp (by simp)
          · split at hp
            · simp only [Option.some.injEq, Prod.mk.injEq] at hp
              omega
            · exact absurd hp (by simp)
      · exact absurd hp (by simp)

theorem parseTimeOnDate_ok {date : Instant} {s : String} {t : Instant}
    (h : parseTimeOnDate date s = Except.ok t) :
    t.day = date.day ∧ 0 ≤ t.minute ∧ t.minute < 1440 := by
  unfold parseTimeOnDate at h
  rcases hp : parseClock s.toList with _ | ⟨hh, mm⟩ <;> rw [hp] at h
  · exact absurd h (by simp)
  · obtain ⟨h1, h2⟩ := parseClock_bounds hp
    cases h
    refine ⟨rfl, ?_, ?_⟩ <;> dsimp only <;> omega

theorem parseTaskTimes_ok {date : Instant} {t : Task} {s e : Instant}
    (h : parseTaskTimes date t = Except.ok (s, e)) :
    (s.day = date.day ∧ 0 ≤ s.minute ∧ s.minute < 1440) ∧
    (e.day = date.day ∧ 0 ≤ e.minute ∧ e.minute < 1440) := by
  unfold parseTaskTimes at h
  rcases h1 : parseTimeOnDate date t.start with _ | s' <;> rw [h1] at h
  · exact absurd h (by simp)
  · rcases h2 : parseTimeOnDate date t.stop with _ | e' <;> rw [h2] at h
    · exact absurd h (by simp)
    · obtain ⟨rfl, rfl⟩ : s' = s ∧ e' = e := by cases h; exact ⟨rfl, rfl⟩
      exact ⟨parseTimeOnDate_ok h1, parseTimeOnDate_ok h2⟩

theorem materialize_mem {date : Instant} {ts : List Task}
    {evs : List TaskEvent} {ev : TaskEvent}
    (h : materialize date ts = Except.ok evs) (hm : ev ∈ evs) :
    (ev.startTime.day = date.day ∧ 0 ≤ ev.startTime.minute ∧
      ev.startTime.minute < 1440) ∧
    (ev.endTime.day = date.day ∧ 0 ≤ ev.endTime.minute ∧
      ev.endTime.minute < 1440) := by
  induction ts generalizing evs with
  | nil =>
    unfold materialize at h
    cases h
    exact absurd hm (by simp)
  | cons t rest ih =>
    unfold materialize at h
    rcases h1 : parseTaskTimes date t with _ | ⟨s, e⟩ <;> rw [h1] at h
    · exact absurd h (by simp)
    · rcases h2 : materialize date rest with _ | evs' <;> rw [h2] at h
      · exact absurd h (by simp)
      · cases h
        rcases List.mem_cons.mp hm with rfl | hm'
        · exact parseTaskTimes_ok h1
        · exact ih h2 hm'

/-! ## C1: the current task's interval contains the query instant -/

theorem currentScan_some {now : Instant} {ts : List Task} {ev : TaskEvent}
    (h : currentScan now ts = Except.ok (some ev)) :
    toMin ev.startTime ≤ toMin now ∧ toMin now < toMin ev.endTime := by
  induction ts with
  | nil =>
    unfold currentScan at h
    exact absurd h (by simp)
  | cons t rest ih =>
    unfold currentScan at h
    rcases h1 : parseTaskTimes now t with _ | ⟨s, e⟩ <;> rw [h1] at h
    · exact absurd h (by simp)
    · simp only at h
      split at h
      · split at h
        · exact absurd h (by simp)
        · cases h
          assumption
      · exact ih h

/-- C1: for every schedule definition and instant `t`, when
`GetCurrentTask t` returns a task, that task's interval contains `t`
under `[start, end)` semantics: its start is at or before `t` and its end
is strictly after `t` (so `t = start` is current and `t = end` is not);
in every other non-error case the function returns `none`, which is the
only other value of its result type. -/
theorem C1_currentTask_within_interval (cfg : Config) (now : Instant)
    (ev : TaskEvent) (h : GetCurrentTask cfg now = Except.ok (some ev)) :
    toMin ev.startTime ≤ toMin now ∧ toMin now < toMin ev.endTime := by
  unfold GetCurrentTask at h
  rcases hd : getCycleDayID cfg now with _ | dayID <;> rw [hd] at h
  · exact absurd h (by simp)
  · exact currentScan_some h

/-- A small weekly schedule: `Task A` on Mondays, 09:00–10:00. -/
def cfgMon : Config :=
  ⟨7, none, [⟨1, [⟨"Task A", "09:00", "10:00"⟩]⟩], []⟩

/-- Witness for C1 at a Monday 09:30 query (model day 0 is a Monday). -/
theorem C1_currentTask_within_interval_witness :
    toMin (⟨0, 540⟩ : Instant) ≤ toMin (⟨0, 570⟩ : Instant) ∧
    toMin (⟨0, 570⟩ : Instant) < toMin (⟨0, 600⟩ : Instant) :=
  C1_currentTask_within_interval cfgMon ⟨0, 570⟩ ⟨"Task A", ⟨0, 540⟩, ⟨0, 600⟩⟩ rfl

/-! ## C4: an OFF override empties the whole date -/

/-- C4: whenever the override scan selects an override marked OFF for
`d`'s calendar day, `GetTasksForDate` returns the empty list — whatever
day-slot the cycle arithmetic would have produced and whatever templates
any slot holds. -/
theorem C4_off_override_empty_date (cfg : Config) (d : Instant)
    (o : Override) (hfind : findOverride cfg.overrides d.day = some o)
    (hoff : o.isOff = true) :
    GetTasksForDate cfg d = Except.ok [] := by
  have hid : getCycleDayID cfg d = Except.ok (-1) := by
    unfold getCycleDayID
    rw [hfind]
    simp [hoff]
  unfold GetTasksForDate
  rw [hid]
  simp [getTasksForDay, materialize]

/-- A configuration whose Monday has a task but whose override list marks
model day 0 as OFF. -/
def cfgOff : Config :=
  ⟨7, none, [⟨1, [⟨"Task A", "09:00", "10:00"⟩]⟩], [⟨true, 0, 0, 0⟩]⟩

/-- Witness for C4: the OFF override on day 0 empties that date. -/
theorem C4_off_override_empty_date_witness :
    GetTasksForDate cfgOff ⟨0, 570⟩ = Except.ok [] :=
  C4_off_override_empty_date cfgOff ⟨0, 570⟩ ⟨true, 0, 0, 0⟩ rfl rfl

/-! ## Go's truncated `%` against the Euclidean remainder -/

theorem neg_tmod_left (x n : Int) : Int.tmod (-x) n = -(Int.tmod x n) := by
  rw [Int.tmod_def, Int.tmod_def, Int.neg_tdiv]
  ring

theorem tmod_bounds (x : Int) {n : Int} (hn : 0 < n) :
    -n < Int.tmod x n ∧ Int.tmod x n < n := by
  rcases le_or_lt 0 x with hx | hx
  · exact ⟨by have := Int.tmod_nonneg n hx; omega, Int.tmod_lt_of_pos x hn⟩
  · have hx' : (0 : Int) ≤ -x := by omega
    have h1 : Int.tmod x n = -(Int.tmod (-x) n) := by rw [neg_tmod_left]; ring
    have h2 := Int.tmod_lt_of_pos (-x) hn
    have h3 := Int.tmod_nonneg n hx'
    omega

theorem goNorm_bounds (x : Int) {n : Int} (hn : 0 < n) :
    0 ≤ goNorm x n ∧ goNorm x n < n := by
  obtain ⟨h1, h2⟩ := tmod_bounds x hn
  unfold goNorm
  dsimp only
  split <;> omega

theorem goNorm_eq_emod (x : Int) {n : Int} (hn : 0 < n) :
    goNorm x n = x % n := by
  obtain ⟨h0, h1⟩ := goNorm_bounds x hn
  have hdiv := Int.tdiv_add_tmod x n
  have hx : ∃ q : Int, x = goNorm x n + n * q := by
    refine ⟨if Int.tmod x n < 0 then x.tdiv n - 1 else x.tdiv n, ?_⟩
    unfold goNorm
    dsimp only
    split <;> linear_combination -hdiv
  obtain ⟨q, hq⟩ := hx
  calc goNorm x n = (goNorm x n + n * q) % n := by
        rw [Int.add_mul_emod_self_left]
        exact (Int.emod_eq_of_lt h0 h1).symm
    _ = x % n := by rw [← hq]

/-- `goNorm` agrees with the double-`%` Euclidean-modulo formula (with
Go's truncated `%`) that the specification spells out. -/
theorem goNorm_eq_double_tmod (x : Int) {n : Int} (hn : 0 < n) :
    goNorm x n = Int.tmod (Int.tmod x n + n) n := by
  obtain ⟨h1, h2⟩ := tmod_bounds x hn
  unfold goNorm
  dsimp only
  split
  · have hge : (0 : Int) ≤ Int.tmod x n + n := by omega
    have hlt : Int.tmod x n + n < n := by omega
    rw [Int.tmod_eq_of_lt hge hlt]
  · have h3 : Int.tmod (Int.tmod x n + n) n = (Int.tmod x n + n) % n :=
      Int.tmod_eq_emod (by omega) (by omega)
    have h4 : (0 : Int) ≤ Int.tmod x n := by omega
    rw [h3, show Int.tmod x n + n = Int.tmod x n + n * 1 by ring,
      Int.add_mul_emod_self_left, Int.emod_eq_of_lt h4 h2]

/-! ## C6: without overrides, the day-slot is periodic in the cycle length -/

/-- C6: with an empty override list and a positive cycle length, the
day-slot resolution repeats after `cycleDays` days — in the 7-day weekday
branch, in the anchored branch, and (vacuously, as the same error) in the
missing-anchor branch. -/
theorem C6_no_overrides_periodic (cfg : Config) (d : Instant)
    (hov : cfg.overrides = []) (hpos : 0 < cfg.cycleDays) :
    getCycleDayID cfg (addDays d cfg.cycleDays) = getCycleDayID cfg d := by
  unfold getCycleDayID
  rw [hov]
  simp only [findOverride]
  rcases ha : cfg.anchorDate with _ | a
  · by_cases h7 : cfg.cycleDays = 7
    · rw [if_pos ⟨h7, rfl⟩, if_pos ⟨h7, rfl⟩, h7]
      unfold addDays weekday
      dsimp only
      rw [show d.day + 7 + 1 = d.day + 1 + 7 * 1 by ring,
        Int.add_mul_emod_self_left]
    · rw [if_neg (fun hc => h7 hc.1), if_neg (fun hc => h7 hc.1)]
  · have hne : ¬ (cfg.cycleDays = 7 ∧ (some a : Option Int) = none) := by
      rintro ⟨-, hc⟩; cases hc
    rw [if_neg hne, if_neg hne]
    unfold addDays
    dsimp only
    rw [goNorm_eq_emod _ hpos, goNorm_eq_emod _ hpos,
      show d.day + cfg.cycleDays - a = (d.day - a) + cfg.cycleDays * 1 by ring,
      Int.add_mul_emod_self_left]

/-- A 3-day anchored cycle (anchor at model day 10). -/
def cfgAnchored : Config := ⟨3, some 10, [], []⟩

/-- Witness for C6 on the anchored 3-day cycle. -/
theorem C6_no_overrides_periodic_witness :
    getCycleDayID cfgAnchored (addDays ⟨4, 0⟩ cfgAnchored.cycleDays) =
      getCycleDayID cfgAnchored ⟨4, 0⟩ :=
  C6_no_overrides_periodic cfgAnchored ⟨4, 0⟩ rfl (by decide)

/-! ## C7: the anchored branch is a Euclidean modulo -/

/-- C7: with an anchor configured, no override covering the date, and a
positive cycle length, `getCycleDayID` returns exactly
`((diffDays % cycleDays) + cycleDays) % cycleDays` (truncated `%`, as in
Go) of the calendar-day difference from the anchor, and that value lies
in `[0, cycleDays)` — non-negative also for dates before the anchor. -/
theorem C7_anchored_euclidean_mod (cfg : Config) (d : Instant) (a : Int)
    (hanchor : cfg.anchorDate = some a)
    (hov : findOverride cfg.overrides d.day = none)
    (hpos : 0 < cfg.cycleDays) :
    getCycleDayID cfg d = Except.ok (goNorm (d.day - a) cfg.cycleDays) ∧
    goNorm (d.day - a) cfg.cycleDays =
      Int.tmod (Int.tmod (d.day - a) cfg.cycleDays + cfg.cycleDays)
        cfg.cycleDays ∧
    0 ≤ goNorm (d.day - a) cfg.cycleDays ∧
    goNorm (d.day - a) cfg.cycleDays < cfg.cycleDays := by
  obtain ⟨h0, h1⟩ := goNorm_bounds (d.day - a) hpos
  refine ⟨?_, goNorm_eq_double_tmod _ hpos, h0, h1⟩
  unfold getCycleDayID
  rw [hov]
  have hne : ¬ (cfg.cycleDays = 7 ∧ cfg.anchorDate = none) := by
    rw [hanchor]; rintro ⟨-, hc⟩; cases hc
  rw [if_neg hne, hanchor]

/-- Witness for C7 at a date six days before the anchor. -/
theorem C7_anchored_euclidean_mod_witness :
    getCycleDayID cfgAnchored ⟨4, 0⟩ =
      Except.ok (goNorm ((4 : Int) - 10) cfgAnchored.cycleDays) ∧
    goNorm ((4 : Int) - 10) cfgAnchored.cycleDays =
      Int.tmod (Int.tmod ((4 : Int) - 10) cfgAnchored.cycleDays +
        cfgAnchored.cycleDays) cfgAnchored.cycleDays ∧
    0 ≤ goNorm ((4 : Int) - 10) cfgAnchored.cycleDays ∧
    goNorm ((4 : Int) - 10) cfgAnchored.cycleDays < cfgAnchored.cycleDays :=
  C7_anchored_euclidean_mod cfgAnchored ⟨4, 0⟩ 10 rfl rfl (by decide)

/-! ## C5: date-range overrides (the override scan checks a single day) -/

/-- The range OFF override of `TestRangeOverrides`: `Date` on model day 0
and `EndDate` on model day 2 (2024-01-01 through 2024-01-03; model day 0
is a Monday, like 2024-01-01). -/
def overrideRange : Override := ⟨true, 0, 2, 0⟩

/-- The `TestRangeOverrides` configuration: `Task A` at 09:00–10:00 on
day-slots 1, 2 and 3, one OFF range override. -/
def cfgRange : Config :=
  ⟨7, none,
    [⟨1, [⟨"Task A", "09:00", "10:00"⟩]⟩,
     ⟨2, [⟨"Task A", "09:00", "10:00"⟩]⟩,
     ⟨3, [⟨"Task A", "09:00", "10:00"⟩]⟩],
    [overrideRange]⟩

/-- C5, evaluated at the failing input of `TestRangeOverrides`: the query
day 1 (Tuesday 09:30) lies strictly inside the inclusive OFF range
`[0, 2]`, yet the override scan of `getCycleDayID` — which compares only
the single `Date` field — misses it, resolves weekday slot 2, and
`GetCurrentTask` returns `Task A` where the repository's own test demands
no task. -/
theorem C5_range_override_ignored :
    (overrideRange.isOff = true ∧
      overrideRange.date ≤ (1 : Int) ∧ (1 : Int) ≤ overrideRange.endDate) ∧
    getCycleDayID cfgRange ⟨1, 570⟩ = Except.ok 2 ∧
    GetCurrentTask cfgRange ⟨1, 570⟩ =
      Except.ok (some ⟨"Task A", ⟨1, 540⟩, ⟨1, 600⟩⟩) := by
  exact ⟨⟨rfl, by decide, by decide⟩, rfl, rfl⟩

/-! ## C10: a placeholder hit makes `GetCurrentTask` give up early -/

/-- A Monday slot whose placeholder template (`"/"`, 09:00–12:00) is
declared before a real task (`Task A`, 09:00–10:00) that overlaps it. -/
def cfgShadow : Config :=
  ⟨7, none, [⟨1, [⟨"/", "09:00", "12:00"⟩, ⟨"Task A", "09:00", "10:00"⟩]⟩], []⟩

/-- C10: at Monday 09:30 the slot is resolved, `Task A` is a real
(non-placeholder) template of that slot whose `[start, end)` interval
contains the query — and still `GetCurrentTask` returns `none`, because
the earlier-declared placeholder covers the instant and the scan stops
there. -/
theorem C10_placeholder_masks_current :
    getCycleDayID cfgShadow ⟨0, 570⟩ = Except.ok 1 ∧
    GetCurrentTask cfgShadow ⟨0, 570⟩ = Except.ok none ∧
    (⟨"Task A", "09:00", "10:00"⟩ : Task) ∈ getTasksForDay cfgShadow 1 ∧
    parseTaskTimes ⟨0, 570⟩ ⟨"Task A", "09:00", "10:00"⟩ =
      Except.ok (⟨0, 540⟩, ⟨0, 600⟩) ∧
    ("Task A" : String) ≠ "/" ∧
    toMin ⟨0, 540⟩ ≤ toMin (⟨0, 570⟩ : Instant) ∧
    toMin (⟨0, 570⟩ : Instant) < toMin ⟨0, 600⟩ := by
  refine ⟨rfl, rfl, ?_, rfl, by decide, by decide, by decide⟩
  simp [getTasksForDay, cfgShadow]

/-! ## C8: `GetTasksForDate` does not filter the placeholder -/

/-- A Monday slot holding only a placeholder template. -/
def cfgSlash : Config := ⟨7, none, [⟨1, [⟨"/", "09:00", "10:00"⟩]⟩], []⟩

/-- C8 counterexample: on a date resolving to that slot,
`GetTasksForDate` returns an instance named `"/"` — the placeholder is
not filtered out of this result. -/
theorem C8_placeholder_not_filtered :
    GetTasksForDate cfgSlash ⟨0, 0⟩ =
      Except.ok [⟨"/", ⟨0, 540⟩, ⟨0, 600⟩⟩] ∧
    TaskEvent.name ⟨"/", ⟨0, 540⟩, ⟨0, 600⟩⟩ = "/" :=
  ⟨rfl, rfl⟩

theorem materialize_names {date : Instant} {ts : List Task}
    {evs : List TaskEvent} (h : materialize date ts = Except.ok evs) :
    evs.map TaskEvent.name = ts.map Task.name := by
  induction ts generalizing evs with
  | nil =>
    unfold materialize at h
    cases h
    rfl
  | cons t rest ih =>
    unfold materialize at h
    rcases h1 : parseTaskTimes date t with _ | ⟨s, e⟩ <;> rw [h1] at h
    · exact absurd h (by simp)
    · rcases h2 : materialize date rest with _ | evs' <;> rw [h2] at h
      · exact absurd h (by simp)
      · cases h
        simp [ih h2]

/-- C8 amended: `GetTasksForDate` performs no name-based filtering at
all — the returned instances' names are exactly (a permutation of, after
sorting) the resolved slot's template names, the placeholder `"/"`
included.  The placeholder is honoured only by `GetCurrentTask`,
`GetNextTask` and `GetPreviousTask`. -/
theorem C8_amended_names_preserved (cfg : Config) (date : Instant)
    (dayID : Int) (evs : List TaskEvent)
    (hid : getCycleDayID cfg date = Except.ok dayID)
    (h : GetTasksForDate cfg date = Except.ok evs) :
    (evs.map TaskEvent.name).Perm ((getTasksForDay cfg dayID).map Task.name) := by
  unfold GetTasksForDate at h
  rw [hid] at h
  dsimp only at h
  rcases h2 : materialize date (getTasksForDay cfg dayID) with _ | evs0 <;>
    rw [h2] at h <;> dsimp only at h
  · exact absurd h (by simp)
  · cases h
    have hperm := (List.perm_insertionSort leStart evs0).map TaskEvent.name
    rw [materialize_names h2] at hperm
    exact hperm

/-- Witness for the amended C8 on the placeholder-only slot. -/
theorem C8_amended_names_preserved_witness :
    (List.map TaskEvent.name [⟨"/", ⟨0, 540⟩, ⟨0, 600⟩⟩]).Perm
      ((getTasksForDay cfgSlash 1).map Task.name) :=
  C8_amended_names_preserved cfgSlash ⟨0, 0⟩ 1
    [⟨"/", ⟨0, 540⟩, ⟨0, 600⟩⟩] rfl rfl

/-! ## C9: what the clock-string reader really accepts -/

/-- The exact `HH:MM` shape of the specification: a two-digit hour whose
value is below 24, a colon, a two-digit minute below 60, nothing else. -/
def exactClockShape (l : List Char) : Bool :=
  match l with
  | [h1, h2, c, m1, m2] =>
    h1.isDigit && h2.isDigit && (c == ':') && m1.isDigit && m2.isDigit &&
      decide (10 * digitVal h1 + digitVal h2 < 24) &&
      decide (10 * digitVal m1 + digitVal m2 < 60)
  | _ => false

/-- The shape `time.Parse("15:04", ·)` actually accepts: a one- *or*
two-digit hour whose value is below 24, a colon, a two-digit minute
below 60, nothing else. -/
def goClockShape (l : List Char) : Bool :=
  match l with
  | [h, c, m1, m2] =>
    h.isDigit && (c == ':') && m1.isDigit && m2.isDigit &&
      decide (digitVal h < 24) &&
      decide (10 * digitVal m1 + digitVal m2 < 60)
  | [h1, h2, c, m1, m2] =>
    h1.isDigit && h2.isDigit && (c == ':') && m1.isDigit && m2.isDigit &&
      decide (10 * digitVal h1 + digitVal h2 < 24) &&
      decide (10 * digitVal m1 + digitVal m2 < 60)
  | _ => false

theorem colon_isDigit_false : (':').isDigit = false := rfl

theorem parseClock_isSome_iff (l : List Char) :
    (parseClock l).isSome = true ↔ goClockShape l = true := by
  rcases l with _ | ⟨c1, _ | ⟨c2, _ | ⟨c3, _ | ⟨c4, _ | ⟨c5, _ | ⟨c6, rest⟩⟩⟩⟩⟩⟩
  · simp [parseClock, getnum, goClockShape]
  · cases hd1 : c1.isDigit <;>
      by_cases h24 : 24 ≤ digitVal c1 <;>
      simp [parseClock, getnum, goClockShape, hd1, h24]
  · by_cases hc2 : c2 = ':'
    · subst hc2
      cases hd1 : c1.isDigit <;>
        by_cases h24 : 24 ≤ digitVal c1 <;>
        simp [parseClock, getnum, goClockShape, hd1, h24, colon_isDigit_false]
    · cases hd1 : c1.isDigit <;> cases hd2 : c2.isDigit <;>
        by_cases h24 : 24 ≤ digitVal c1 <;>
        by_cases h24' : 24 ≤ 10 * digitVal c1 + digitVal c2 <;>
        simp [parseClock, getnum, goClockShape, hd1, hd2, h24, h24'] <;>
        split <;> simp_all
  · by_cases hc2 : c2 = ':'
    · subst hc2
      cases hd1 : c1.isDigit <;> cases hd3 : c3.isDigit <;>
        by_cases h24 : 24 ≤ digitVal c1 <;>
        simp [parseClock, getnum, goClockShape, hd1, hd3, h24, colon_isDigit_false]
    · cases hd1 : c1.isDigit <;> cases hd2 : c2.isDigit <;>
        by_cases hc3 : c3 = ':' <;>
        by_cases h24 : 24 ≤ digitVal c1 <;>
        by_cases h24' : 24 ≤ 10 * digitVal c1 + digitVal c2 <;>
        simp [parseClock, getnum, goClockShape, hd1, hd2, hc3, h24, h24'] <;>
        split <;> simp_all
  · by_cases hc2 : c2 = ':'
    · subst hc2
      cases hd1 : c1.isDigit <;> cases hd3 : c3.isDigit <;> cases hd4 : c4.isDigit <;>
        by_cases h24 : 24 ≤ digitVal c1 <;>
        by_cases h60 : 60 ≤ 10 * digitVal c3 + digitVal c4 <;>
        simp [parseClock, getnum, goClockShape, hd1, hd3, hd4, h24, h60,
          colon_isDigit_false] <;>
        omega
    · cases hd1 : c1.isDigit <;> cases hd2 : c2.isDigit <;>
        by_cases hc3 : c3 = ':' <;>
        by_cases h24' : 24 ≤ 10 * digitVal c1 + digitVal c2 <;>
        by_cases h24 : 24 ≤ digitVal c1 <;>
        simp [parseClock, getnum, goClockShape, hd1, hd2, hc2, hc3, h24, h24']
  · by_cases hc2 : c2 = ':'
    · subst hc2
      cases hd1 : c1.isDigit <;> cases hd3 : c3.isDigit <;> cases hd4 : c4.isDigit <;>
        by_cases h24 : 24 ≤ digitVal c1 <;>
        by_cases h60 : 60 ≤ 10 * digitVal c3 + digitVal c4 <;>
        simp [parseClock, getnum, goClockShape, hd1, hd3, hd4, h24, h60,
          colon_isDigit_false]
    · by_cases hc3 : c3 = ':'
      · subst hc3
        cases hd1 : c1.isDigit <;> cases hd2 : c2.isDigit <;>
          cases hd4 : c4.isDigit <;> cases hd5 : c5.isDigit <;>
          by_cases h24 : 24 ≤ digitVal c1 <;>
          by_cases h24' : 24 ≤ 10 * digitVal c1 + digitVal c2 <;>
          by_cases h60 : 60 ≤ 10 * digitVal c4 + digitVal c5 <;>
          simp [parseClock, getnum, goClockShape, hd1, hd2, hd4, hd5, hc2,
            h24, h24', h60, colon_isDigit_false] <;>
          omega
      · cases hd1 : c1.isDigit <;> cases hd2 : c2.isDigit <;>
          by_cases h24 : 24 ≤ digitVal c1 <;>
          by_cases h24' : 24 ≤ 10 * digitVal c1 + digitVal c2 <;>
          simp [parseClock, getnum, goClockShape, hd1, hd2, hc2, hc3, h24, h24']
  · by_cases hc2 : c2 = ':'
    · subst hc2
      cases hd1 : c1.isDigit <;> cases hd3 : c3.isDigit <;> cases hd4 : c4.isDigit <;>
        by_cases h24 : 24 ≤ digitVal c1 <;>
        by_cases h60 : 60 ≤ 10 * digitVal c3 + digitVal c4 <;>
        simp [parseClock, getnum, goClockShape, hd1, hd3, hd4, h24, h60,
          colon_isDigit_false]
    · by_cases hc3 : c3 = ':'
      · subst hc3
        cases hd1 : c1.isDigit <;> cases hd2 : c2.isDigit <;>
          cases hd4 : c4.isDigit <;> cases hd5 : c5.isDigit <;>
          by_cases h24 : 24 ≤ digitVal c1 <;>
          by_cases h24' : 24 ≤ 10 * digitVal c1 + digitVal c2 <;>
          by_cases h60 : 60 ≤ 10 * digitVal c4 + digitVal c5 <;>
          simp [parseClock, getnum, goClockShape, hd1, hd2, hd4, hd5, hc2,
            h24, h24', h60, colon_isDigit_false]
      · cases hd1 : c1.isDigit <;> cases hd2 : c2.isDigit <;>
          by_cases h24 : 24 ≤ digitVal c1 <;>
          by_cases h24' : 24 ≤ 10 * digitVal c1 + digitVal c2 <;>
          simp [parseClock, getnum, goClockShape, hd1, hd2, hc2, hc3, h24, h24']

/-- C9 counterexample: `"9:30"` is not of the exact two-digit `HH:MM`
shape, yet the reader accepts it (Go's `"15"` layout element also
consumes a single-digit hour), so "error iff not the exact shape"
fails. -/
theorem C9_single_digit_hour_accepted :
    exactClockShape ("9:30".toList) = false ∧
    parseTimeOnDate ⟨0, 0⟩ "9:30" = Except.ok ⟨0, 570⟩ :=
  ⟨rfl, rfl⟩

/-! ## C2: `GetNextTask` finds the earliest strictly-later start -/

/-- A real (non-placeholder) event starting strictly after `now`. -/
def realAfter (now : Instant) (ev : TaskEvent) : Prop :=
  ev.name ≠ "/" ∧ toMin now < toMin ev.startTime

theorem scanNext_eq_some {now : Instant} {l : List TaskEvent} {ev : TaskEvent}
    (hs : List.Sorted leStart l) (h : scanNext now l = some ev) :
    ev ∈ l ∧ realAfter now ev ∧
      ∀ e ∈ l, realAfter now e → toMin ev.startTime ≤ toMin e.startTime := by
  induction l with
  | nil => simp [scanNext] at h
  | cons a rest ih =>
    simp only [scanNext] at h
    by_cases h1 : toMin now < toMin a.startTime
    · rw [if_pos h1] at h
      by_cases h2 : a.name = "/"
      · rw [if_pos h2] at h
        obtain ⟨hmem, hra, hmin⟩ := ih hs.of_cons h
        refine ⟨List.mem_cons_of_mem _ hmem, hra, ?_⟩
        intro e he hre
        rcases List.mem_cons.mp he with rfl | he'
        · exact absurd h2 hre.1
        · exact hmin e he' hre
      · rw [if_neg h2] at h
        cases h
        refine ⟨List.mem_cons_self _ _, ⟨h2, h1⟩, ?_⟩
        intro e he hre
        rcases List.mem_cons.mp he with rfl | he'
        · exact le_refl _
        · exact List.rel_of_sorted_cons hs e he'
    · rw [if_neg h1] at h
      obtain ⟨hmem, hra, hmin⟩ := ih hs.of_cons h
      refine ⟨List.mem_cons_of_mem _ hmem, hra, ?_⟩
      intro e he hre
      rcases List.mem_cons.mp he with rfl | he'
      · exact absurd hre.2 h1
      · exact hmin e he' hre

theorem scanNext_eq_none {now : Instant} {l : List TaskEvent}
    (h : scanNext now l = none) : ∀ e ∈ l, ¬ realAfter now e := by
  induction l with
  | nil => simp
  | cons a rest ih =>
    simp only [scanNext] at h
    by_cases h1 : toMin now < toMin a.startTime
    · rw [if_pos h1] at h
      by_cases h2 : a.name = "/"
      · rw [if_pos h2] at h
        intro e he hre
        rcases List.mem_cons.mp he with rfl | he'
        · exact hre.1 h2
        · exact ih h e he' hre
      · rw [if_neg h2] at h
        cases h
    · rw [if_neg h1] at h
      intro e he hre
      rcases List.mem_cons.mp he with rfl | he'
      · exact h1 hre.2
      · exact ih h e he' hre

/-- A candidate of the forward walk at day offset `i`: a real instance
materialized on that day, starting strictly after `now`. -/
def dayCand (cfg : Config) (now : Instant) (i : Int) (ev : TaskEvent) : Prop :=
  ∃ dayID evs, getCycleDayID cfg (addDays now i) = Except.ok dayID ∧
    materialize (addDays now i) (getTasksForDay cfg dayID) = Except.ok evs ∧
    ev ∈ evs ∧ realAfter now ev

/-- C2's candidate set: the instances materialized on the days of the
forward search bound (`now`'s date plus `0 … maxDays - 1` days) that are
real and start strictly after `now`. -/
def nextCand (cfg : Config) (now : Instant) (ev : TaskEvent) : Prop :=
  ∃ i ∈ searchOffsets cfg, dayCand cfg now i ev

theorem dayCand_start_bounds {cfg : Config} {now : Instant} {i : Int}
    {ev : TaskEvent} (h : dayCand cfg now i ev) :
    ev.startTime.day = now.day + i ∧ 0 ≤ ev.startTime.minute ∧
      ev.startTime.minute < 1440 := by
  obtain ⟨dayID, evs, -, hmat, hmem, -⟩ := h
  obtain ⟨⟨hd, h0, h1⟩, -⟩ := materialize_mem hmat hmem
  exact ⟨by rw [hd]; rfl, h0, h1⟩

theorem nextSearch_ok {cfg : Config} {now : Instant} {L : List Int}
    {r : Option TaskEvent} (hp : L.Pairwise (· < ·))
    (h : nextSearch cfg now L = Except.ok r) :
    (∀ ev, r = some ev → (∃ i ∈ L, dayCand cfg now i ev) ∧
      ∀ ev', (∃ i ∈ L, dayCand cfg now i ev') →
        toMin ev.startTime ≤ toMin ev'.startTime) ∧
    (r = none → ∀ ev, ¬ ∃ i ∈ L, dayCand cfg now i ev) := by
  induction L generalizing r with
  | nil =>
    simp only [nextSearch] at h
    cases h
    constructor
    · intro ev hev
      cases hev
    · rintro - ev ⟨j, hj, -⟩
      exact absurd hj (List.not_mem_nil j)
  | cons i rest ih =>
    simp only [nextSearch] at h
    rcases hid : getCycleDayID cfg (addDays now i) with e | dayID <;>
      rw [hid] at h <;> dsimp only at h
    · exact absurd h (by simp)
    · rcases hmat : materialize (addDays now i) (getTasksForDay cfg dayID)
        with e | evs <;> rw [hmat] at h <;> dsimp only at h
      · exact absurd h (by simp)
      · rcases hscan : scanNext now (List.insertionSort leStart evs)
          with _ | ev0 <;> rw [hscan] at h <;> dsimp only at h
        · -- no hit on this day: recurse
          have hrest := ih hp.of_cons h
          have hno : ∀ ev, ¬ dayCand cfg now i ev := by
            rintro ev ⟨dayID', evs', hid', hmat', hmem, hra⟩
            rw [hid] at hid'
            cases hid'
            rw [hmat] at hmat'
            cases hmat'
            exact scanNext_eq_none hscan ev
              ((List.mem_insertionSort leStart).mpr hmem) hra
          constructor
          · intro ev hev
            obtain ⟨hc, hmin⟩ := hrest.1 ev hev
            constructor
            · obtain ⟨j, hj, hd⟩ := hc
              exact ⟨j, List.mem_cons_of_mem _ hj, hd⟩
            · rintro ev' ⟨j, hj, hd⟩
              rcases List.mem_cons.mp hj with rfl | hj'
              · exact absurd hd (hno ev')
              · exact hmin ev' ⟨j, hj', hd⟩
          · rintro hr ev ⟨j, hj, hd⟩
            rcases List.mem_cons.mp hj with rfl | hj'
            · exact hno ev hd
            · exact hrest.2 hr ev ⟨j, hj', hd⟩
        · -- hit on this day
          cases h
          constructor
          · intro ev hev
            injection hev with hev
            subst hev
            obtain ⟨hmem, hra, hmin⟩ := scanNext_eq_some
              (List.sorted_insertionSort leStart _) hscan
            have hmem' := (List.mem_insertionSort leStart).mp hmem
            refine ⟨⟨i, List.mem_cons_self _ _, dayID, evs, hid, hmat, hmem', hra⟩, ?_⟩
            rintro ev' ⟨j, hj, hd⟩
            rcases List.mem_cons.mp hj with rfl | hj'
            · obtain ⟨dayID', evs', hid', hmat', hm', hra'⟩ := hd
              rw [hid] at hid'
              cases hid'
              rw [hmat] at hmat'
              cases hmat'
              exact hmin ev' ((List.mem_insertionSort leStart).mpr hm') hra'
            · have hij : i < j := (List.pairwise_cons.mp hp).1 j hj'
              have hc0 : dayCand cfg now i ev0 := ⟨dayID, evs, hid, hmat, hmem', hra⟩
              obtain ⟨hd', h0', h1'⟩ := dayCand_start_bounds hc0
              obtain ⟨hdj, h0j, h1j⟩ := dayCand_start_bounds hd
              unfold toMin
              omega
          · intro hr
            cases hr

/-- C2: for every configuration and instant, when `GetNextTask` returns
without error, a returned instance starts strictly after `now` and has
the least start time among all real instances materialized on the days
of the `max(cycleDays*2, 7)`-day forward walk that start strictly after
`now`; and it returns `none` exactly when no such instance exists within
that bound. -/
theorem C2_nextTask_earliest_within_bound (cfg : Config) (now : Instant)
    (r : Option TaskEvent) (h : GetNextTask cfg now = Except.ok r) :
    (∀ ev, r = some ev → toMin now < toMin ev.startTime ∧
      nextCand cfg now ev ∧
      ∀ ev', nextCand cfg now ev' → toMin ev.startTime ≤ toMin ev'.startTime) ∧
    (r = none ↔ ∀ ev, ¬ nextCand cfg now ev) := by
  have hp : (searchOffsets cfg).Pairwise (· < ·) := by
    unfold searchOffsets
    refine List.pairwise_map.mpr ?_
    exact (List.pairwise_lt_range _).imp (fun hab => Int.ofNat_lt.mpr hab)
  unfold GetNextTask at h
  obtain ⟨h1, h2⟩ := nextSearch_ok hp h
  constructor
  · intro ev hev
    obtain ⟨hc, hmin⟩ := h1 ev hev
    have hstart : toMin now < toMin ev.startTime := by
      obtain ⟨i, hi, -, -, -, -, -, hra⟩ := hc
      exact hra.2
    exact ⟨hstart, hc, hmin⟩
  · constructor
    · exact fun hr ev => h2 hr ev
    · intro hno
      rcases hr : r with _ | ev
      · rfl
      · obtain ⟨hc, -⟩ := h1 ev hr
        exact absurd hc (hno ev)

/-- Witness for C2: on the Monday-only schedule at Monday 00:00, the
walk returns Task A at 09:00, and all three conclusions hold there. -/
theorem C2_nextTask_earliest_within_bound_witness :
    (∀ ev, (some ⟨"Task A", ⟨0, 540⟩, ⟨0, 600⟩⟩ : Option TaskEvent) = some ev →
      toMin (⟨0, 0⟩ : Instant) < toMin ev.startTime ∧
      nextCand cfgMon ⟨0, 0⟩ ev ∧
      ∀ ev', nextCand cfgMon ⟨0, 0⟩ ev' →
        toMin ev.startTime ≤ toMin ev'.startTime) ∧
    ((some ⟨"Task A", ⟨0, 540⟩, ⟨0, 600⟩⟩ : Option TaskEvent) = none ↔
      ∀ ev, ¬ nextCand cfgMon ⟨0, 0⟩ ev) :=
  C2_nextTask_earliest_within_bound cfgMon ⟨0, 0⟩
    (some ⟨"Task A", ⟨0, 540⟩, ⟨0, 600⟩⟩) rfl

/-! ## C3: `GetPreviousTask` finds the latest end at or before `now` -/

/-- A real (non-placeholder) event ending at or before `now`. -/
def realBefore (now : Instant) (ev : TaskEvent) : Prop :=
  ev.name ≠ "/" ∧ toMin ev.endTime ≤ toMin now

theorem scanPrev_eq_some {now : Instant} {l : List TaskEvent} {ev : TaskEvent}
    (hs : List.Sorted geEnd l) (h : scanPrev now l = some ev) :
    ev ∈ l ∧ realBefore now ev ∧
      ∀ e ∈ l, realBefore now e → toMin e.endTime ≤ toMin ev.endTime := by
  induction l with
  | nil => simp [scanPrev] at h
  | cons a rest ih =>
    simp only [scanPrev] at h
    by_cases h1 : toMin a.endTime ≤ toMin now
    · rw [if_pos h1] at h
      by_cases h2 : a.name = "/"
      · rw [if_pos h2] at h
        obtain ⟨hmem, hra, hmax⟩ := ih hs.of_cons h
        refine ⟨List.mem_cons_of_mem _ hmem, hra, ?_⟩
        intro e he hre
        rcases List.mem_cons.mp he with rfl | he'
        · exact absurd h2 hre.1
        · exact hmax e he' hre
      · rw [if_neg h2] at h
        cases h
        refine ⟨List.mem_cons_self _ _, ⟨h2, h1⟩, ?_⟩
        intro e he hre
        rcases List.mem_cons.mp he with rfl | he'
        · exact le_refl _
        · exact List.rel_of_sorted_cons hs e he'
    · rw [if_neg h1] at h
      obtain ⟨hmem, hra, hmax⟩ := ih hs.of_cons h
      refine ⟨List.mem_cons_of_mem _ hmem, hra, ?_⟩
      intro e he hre
      rcases List.mem_cons.mp he with rfl | he'
      · exact absurd hre.2 h1
      · exact hmax e he' hre

theorem scanPrev_eq_none {now : Instant} {l : List TaskEvent}
    (h : scanPrev now l = none) : ∀ e ∈ l, ¬ realBefore now e := by
  induction l with
  | nil => simp
  | cons a rest ih =>
    simp only [scanPrev] at h
    by_cases h1 : toMin a.endTime ≤ toMin now
    · rw [if_pos h1] at h
      by_cases h2 : a.name = "/"
      · rw [if_pos h2] at h
        intro e he hre
        rcases List.mem_cons.mp he with rfl | he'
        · exact hre.1 h2
        · exact ih h e he' hre
      · rw [if_neg h2] at h
        cases h
    · rw [if_neg h1] at h
      intro e he hre
      rcases List.mem_cons.mp he with rfl | he'
      · exact h1 hre.2
      · exact ih h e he' hre

/-- A candidate of the backward walk at day offset `i`: a real instance
materialized on that day, ending at or before `now`. -/
def dayCandPrev (cfg : Config) (now : Instant) (i : Int) (ev : TaskEvent) : Prop :=
  ∃ dayID evs, getCycleDayID cfg (addDays now i) = Except.ok dayID ∧
    materialize (addDays now i) (getTasksForDay cfg dayID) = Except.ok evs ∧
    ev ∈ evs ∧ realBefore now ev

/-- C3's candidate set: the instances materialized on the days of the
backward search bound (`now`'s date minus `0 … maxDays - 1` days) that
are real and end at or before `now`. -/
def prevCand (cfg : Config) (now : Instant) (ev : TaskEvent) : Prop :=
  ∃ i ∈ prevOffsets cfg, dayCandPrev cfg now i ev

theorem dayCandPrev_end_bounds {cfg : Config} {now : Instant} {i : Int}
    {ev : TaskEvent} (h : dayCandPrev cfg now i ev) :
    ev.endTime.day = now.day + i ∧ 0 ≤ ev.endTime.minute ∧
      ev.endTime.minute < 1440 := by
  obtain ⟨dayID, evs, -, hmat, hmem, -⟩ := h
  obtain ⟨-, hd, h0, h1⟩ := materialize_mem hmat hmem
  exact ⟨by rw [hd]; rfl, h0, h1⟩

theorem prevSearch_ok {cfg : Config} {now : Instant} {L : List Int}
    {r : Option TaskEvent} (hp : L.Pairwise (· > ·))
    (h : prevSearch cfg now L = Except.ok r) :
    (∀ ev, r = some ev → (∃ i ∈ L, dayCandPrev cfg now i ev) ∧
      ∀ ev', (∃ i ∈ L, dayCandPrev cfg now i ev') →
        toMin ev'.endTime ≤ toMin ev.endTime) ∧
    (r = none → ∀ ev, ¬ ∃ i ∈ L, dayCandPrev cfg now i ev) := by
  induction L generalizing r with
  | nil =>
    simp only [prevSearch] at h
    cases h
    constructor
    · intro ev hev
      cases hev
    · rintro - ev ⟨j, hj, -⟩
      exact absurd hj (List.not_mem_nil j)
  | cons i rest ih =>
    simp only [prevSearch] at h
    rcases hid : getCycleDayID cfg (addDays now i) with e | dayID <;>
      rw [hid] at h <;> dsimp only at h
    · exact absurd h (by simp)
    · rcases hmat : materialize (addDays now i) (getTasksForDay cfg dayID)
        with e | evs <;> rw [hmat] at h <;> dsimp only at h
      · exact absurd h (by simp)
      · rcases hscan : scanPrev now (List.insertionSort geEnd evs)
          with _ | ev0 <;> rw [hscan] at h <;> dsimp only at h
        · have hrest := ih hp.of_cons h
          have hno : ∀ ev, ¬ dayCandPrev cfg now i ev := by
            rintro ev ⟨dayID', evs', hid', hmat', hmem, hra⟩
            rw [hid] at hid'
            cases hid'
            rw [hmat] at hmat'
            cases hmat'
            exact scanPrev_eq_none hscan ev
              ((List.mem_insertionSort geEnd).mpr hmem) hra
          constructor
          · intro ev hev
            obtain ⟨hc, hmax⟩ := hrest.1 ev hev
            constructor
            · obtain ⟨j, hj, hd⟩ := hc
              exact ⟨j, List.mem_cons_of_mem _ hj, hd⟩
            · rintro ev' ⟨j, hj, hd⟩
              rcases List.mem_cons.mp hj with rfl | hj'
              · exact absurd hd (hno ev')
              · exact hmax ev' ⟨j, hj', hd⟩
          · rintro hr ev ⟨j, hj, hd⟩
            rcases List.mem_cons.mp hj with rfl | hj'
            · exact hno ev hd
            · exact hrest.2 hr ev ⟨j, hj', hd⟩
        · cases h
          constructor
          · intro ev hev
            injection hev with hev
            subst hev
            obtain ⟨hmem, hra, hmax⟩ := scanPrev_eq_some
              (List.sorted_insertionSort geEnd _) hscan
            have hmem' := (List.mem_insertionSort geEnd).mp hmem
            refine ⟨⟨i, List.mem_cons_self _ _, dayID, evs, hid, hmat, hmem', hra⟩, ?_⟩
            rintro ev' ⟨j, hj, hd⟩
            rcases List.mem_cons.mp hj with rfl | hj'
            · obtain ⟨dayID', evs', hid', hmat', hm', hra'⟩ := hd
              rw [hid] at hid'
              cases hid'
              rw [hmat] at hmat'
              cases hmat'
              exact hmax ev' ((List.mem_insertionSort geEnd).mpr hm') hra'
            · have hij : i > j := (List.pairwise_cons.mp hp).1 j hj'
              have hc0 : dayCandPrev cfg now i ev0 := ⟨dayID, evs, hid, hmat, hmem', hra⟩
              obtain ⟨hd', h0', h1'⟩ := dayCandPrev_end_bounds hc0
              obtain ⟨hdj, h0j, h1j⟩ := dayCandPrev_end_bounds hd
              unfold toMin
              omega
          · intro hr
            cases hr

/-- C3: for every configuration and instant, when `GetPreviousTask`
returns without error, a returned instance ends at or before `now` and
has the greatest end time among all real instances materialized on the
days of the `max(cycleDays*2, 7)`-day backward walk that end at or
before `now`; and it returns `none` exactly when no such instance exists
within that bound. -/
theorem C3_previousTask_latest_within_bound (cfg : Config) (now : Instant)
    (r : Option TaskEvent) (h : GetPreviousTask cfg now = Except.ok r) :
    (∀ ev, r = some ev → toMin ev.endTime ≤ toMin now ∧
      prevCand cfg now ev ∧
      ∀ ev', prevCand cfg now ev' → toMin ev'.endTime ≤ toMin ev.endTime) ∧
    (r = none ↔ ∀ ev, ¬ prevCand cfg now ev) := by
  have hp : (prevOffsets cfg).Pairwise (· > ·) := by
    unfold prevOffsets
    refine List.pairwise_map.mpr ?_
    exact (List.pairwise_lt_range _).imp
      (fun hab => Int.neg_lt_neg (Int.ofNat_lt.mpr hab))
  unfold GetPreviousTask at h
  obtain ⟨h1, h2⟩ := prevSearch_ok hp h
  constructor
  · intro ev hev
    obtain ⟨hc, hmax⟩ := h1 ev hev
    have hend : toMin ev.endTime ≤ toMin now := by
      obtain ⟨i, hi, -, -, -, -, -, hra⟩ := hc
      exact hra.2
    exact ⟨hend, hc, hmax⟩
  · constructor
    · exact fun hr ev => h2 hr ev
    · intro hno
      rcases hr : r with _ | ev
      · rfl
      · obtain ⟨hc, -⟩ := h1 ev hr
        exact absurd hc (hno ev)

/-- Witness for C3: on the Monday-only schedule at Monday 23:00, the
backward walk returns Task A (ended 10:00), and all conclusions hold. -/
theorem C3_previousTask_latest_within_bound_witness :
    (∀ ev, (some ⟨"Task A", ⟨0, 540⟩, ⟨0, 600⟩⟩ : Option TaskEvent) = some ev →
      toMin ev.endTime ≤ toMin (⟨0, 1380⟩ : Instant) ∧
      prevCand cfgMon ⟨0, 1380⟩ ev ∧
      ∀ ev', prevCand cfgMon ⟨0, 1380⟩ ev' →
        toMin ev'.endTime ≤ toMin ev.endTime) ∧
    ((some ⟨"Task A", ⟨0, 540⟩, ⟨0, 600⟩⟩ : Option TaskEvent) = none ↔
      ∀ ev, ¬ prevCand cfgMon ⟨0, 1380⟩ ev) :=
  C3_previousTask_latest_within_bound cfgMon ⟨0, 1380⟩
    (some ⟨"Task A", ⟨0, 540⟩, ⟨0, 600⟩⟩) rfl

/-- C9 amended: the time-of-day reader fails exactly on the strings that
are not of the form hour-colon-minute with a one- or two-digit hour
valued below 24 and a two-digit minute valued below 60 (still no
seconds, no AM/PM, no surrounding text). -/
theorem C9_amended_error_iff_malformed (date : Instant) (s : String) :
    parseTimeOnDate date s = Except.error () ↔ goClockShape s.toList = false := by
  unfold parseTimeOnDate
  rcases hp : parseClock s.toList with _ | ⟨hh, mm⟩
  · have h := parseClock_isSome_iff s.toList
    rw [hp] at h
    simp only [Option.isSome_none, Bool.false_eq_true, false_iff,
      Bool.not_eq_true] at h
    simp only [String.toList] at h
    simp [h]
  · have h := parseClock_isSome_iff s.toList
    rw [hp] at h
    simp only [Option.isSome_some, true_iff] at h
    simp only [String.toList] at h
    simp [h]

end Sked
